import Mathlib

set_option maxHeartbeats 1000000
set_option maxRecDepth 10000
set_option linter.unusedSectionVars false
set_option linter.unusedVariables false

/-!
Shallow embedding of the streaming audio convolution repository
(src/ring_buffer.rs, src/fast_convolver.rs, src/comb_filter.rs).

Rust's RingBuffer is generic over its element type; the convolver's f32
samples are modeled as elements of an arbitrary commutative ring (exact
arithmetic: the repository's sample paths use only addition and
multiplication).  General theorems hold for every such ring, in particular
for the rationals; concrete counterexamples are evaluated over the integers,
whose small values are exactly representable in f32, so each exhibited
discrepancy is exact and far above the spec's 1e-5 tolerance.  Rust panics
(index out of bounds, slice length mismatch, usize underflow, division by
zero) are modeled as Option.none at the call that panics.
-/

/-- Fixed-capacity ring storage, struct RingBuffer of ring_buffer.rs:
backing vec, write cursor head, read cursor tail. -/
structure RingBuffer (α : Type) where
  buffer : List α
  head : ℕ
  tail : ℕ
deriving DecidableEq

/-- One public RingBuffer operation, for quantifying over operation
sequences. -/
inductive RingOp (α : Type) where
  | push : α → RingOp α
  | pop : RingOp α
  | put : α → RingOp α
  | peek : RingOp α
  | get : ℕ → RingOp α
  | setRead : ℕ → RingOp α
  | setWrite : ℕ → RingOp α
deriving DecidableEq

section ModelDefs

variable {α : Type} [CommRing α]

/-- RingBuffer::new: capacity default-valued slots, both cursors at 0. -/
def RingBuffer.new (capacity : ℕ) : RingBuffer α :=
  ⟨List.replicate capacity 0, 0, 0⟩

/-- RingBuffer::capacity: size of the internal buffer. -/
def RingBuffer.capacity (r : RingBuffer α) : ℕ := r.buffer.length

/-- RingBuffer::reset: zero all slots, reset both cursors. -/
def RingBuffer.reset (r : RingBuffer α) : RingBuffer α :=
  ⟨List.replicate r.capacity 0, 0, 0⟩

/-- RingBuffer::put: write at the write cursor without advancing.  The
List.set model is faithful whenever head < capacity (the modular cursor
invariant); a capacity-0 buffer panics in Rust and is guarded with Option at
the convolver call sites. -/
def RingBuffer.put (r : RingBuffer α) (v : α) : RingBuffer α :=
  { r with buffer := r.buffer.set r.head v }

/-- RingBuffer::peek: read at the read cursor tail without advancing. -/
def RingBuffer.peek (r : RingBuffer α) : α := r.buffer.getD r.tail 0

/-- RingBuffer::get: read at (tail + offset) mod capacity without advancing. -/
def RingBuffer.get (r : RingBuffer α) (offset : ℕ) : α :=
  r.buffer.getD ((r.tail + offset) % r.capacity) 0

/-- RingBuffer::push: write at head, then advance head modulo capacity. -/
def RingBuffer.push (r : RingBuffer α) (v : α) : RingBuffer α :=
  { r with buffer := r.buffer.set r.head v, head := (r.head + 1) % r.capacity }

/-- RingBuffer::pop: read at tail, then advance tail modulo capacity; returns
the value and the updated buffer. -/
def RingBuffer.pop (r : RingBuffer α) : α × RingBuffer α :=
  (r.buffer.getD r.tail 0, { r with tail := (r.tail + 1) % r.capacity })

/-- RingBuffer::get_read_index. -/
def RingBuffer.get_read_index (r : RingBuffer α) : ℕ := r.tail

/-- RingBuffer::set_read_index: reduce the given index modulo capacity. -/
def RingBuffer.set_read_index (r : RingBuffer α) (index : ℕ) : RingBuffer α :=
  { r with tail := index % r.capacity }

/-- RingBuffer::get_write_index. -/
def RingBuffer.get_write_index (r : RingBuffer α) : ℕ := r.head

/-- RingBuffer::set_write_index: reduce the given index modulo capacity. -/
def RingBuffer.set_write_index (r : RingBuffer α) (index : ℕ) : RingBuffer α :=
  { r with head := index % r.capacity }

/-- RingBuffer::len: number of values currently in the ring buffer. -/
def RingBuffer.len (r : RingBuffer α) : ℕ :=
  if r.head ≥ r.tail then r.head - r.tail else r.head + r.capacity - r.tail

/-- n successive RingBuffer::pop calls, collecting the popped values (the
loop body of FastConvolver::flush). -/
def RingBuffer.popN : RingBuffer α → ℕ → List α × RingBuffer α
  | r, 0 => ([], r)
  | r, n + 1 =>
    let p := r.pop
    let q := p.2.popN n
    (p.1 :: q.1, q.2)

/-- State effect of one RingBuffer operation; the pure reads peek and get
leave the state unchanged. -/
def applyOp (r : RingBuffer α) : RingOp α → RingBuffer α
  | RingOp.push v => r.push v
  | RingOp.pop => (r.pop).2
  | RingOp.put v => r.put v
  | RingOp.peek => r
  | RingOp.get _ => r
  | RingOp.setRead i => r.set_read_index i
  | RingOp.setWrite i => r.set_write_index i

/-- Run a finite sequence of RingBuffer operations from a starting state. -/
def runOps (r : RingBuffer α) (ops : List (RingOp α)) : RingBuffer α :=
  ops.foldl applyOp r

/-- The ring invariant of the spec: fixed backing size and both cursors in
range. -/
def RingInv (r : RingBuffer α) (c : ℕ) : Prop :=
  r.buffer.length = c ∧ r.head < c ∧ r.tail < c

end ModelDefs

/-- enum ConvolutionMode of fast_convolver.rs. -/
inductive ConvolutionMode where
  | TimeDomain : ConvolutionMode
  | FrequencyDomain : ℕ → ConvolutionMode
deriving DecidableEq

/-- struct FastConvolver of fast_convolver.rs. -/
structure FastConvolver (α : Type) where
  impulse_response : List α
  buffer : RingBuffer α
  mode : ConvolutionMode
deriving DecidableEq

section ConvolverDefs

variable {α : Type} [CommRing α]

/-- FastConvolver::new.  Both match arms compute impulse_response.len() - 1
in usize and allocate the tail ring buffer with that capacity; for an empty
impulse response the subtraction underflows (checked-arithmetic panic in
debug, an absurd allocation in release), so construction never yields a valid
engine: modeled as none. -/
def FastConvolver.new (impulse_response : List α) (mode : ConvolutionMode) :
    Option (FastConvolver α) :=
  if impulse_response.length = 0 then none
  else some ⟨impulse_response, RingBuffer.new (impulse_response.length - 1), mode⟩

/-- FastConvolver::reset. -/
def FastConvolver.reset (c : FastConvolver α) : FastConvolver α :=
  { c with buffer := c.buffer.reset }

/-- One entry of full_output in FastConvolver::time_domain_convolution and of
fft_output_re in FastConvolver::fft_based_convolution: the nested loop
accumulates input[i - j] * impulse_response[j] over j with i >= j and
i - j < input.len(). -/
def convEntry (input h : List α) (i : ℕ) : α :=
  (List.range h.length).foldl
    (fun acc j =>
      if j ≤ i ∧ i - j < input.length then acc + input.getD (i - j) 0 * h.getD j 0 else acc) 0

/-- FastConvolver::time_domain_convolution.  full_output has length
output.len() + L - 1 (usize underflow for L = 0: none); the first
output.len() entries replace the whole caller output buffer via
copy_from_slice, and entries from input.len() on are pushed into the tail
ring buffer (pushing into a capacity-0 buffer is an index-out-of-bounds
panic: none). -/
def FastConvolver.time_domain_convolution (c : FastConvolver α)
    (input output : List α) : Option (List α × FastConvolver α) :=
  if c.impulse_response.length = 0 then none
  else
    let full := (List.range (output.length + c.impulse_response.length - 1)).map
      (convEntry input c.impulse_response)
    if input.length < full.length ∧ c.buffer.capacity = 0 then none
    else some (full.take output.length,
      { c with buffer := (full.drop input.length).foldl RingBuffer.push c.buffer })

/-- FastConvolver::flush: pop once for every position of the caller's output
buffer, overwriting it completely (pop on a capacity-0 buffer panics:
none). -/
def FastConvolver.flush (c : FastConvolver α) (output : List α) :
    Option (List α × FastConvolver α) :=
  if output.length ≠ 0 ∧ c.buffer.capacity = 0 then none
  else some ((c.buffer.popN output.length).1,
    { c with buffer := (c.buffer.popN output.length).2 })

/-- FastConvolver::block_signals: split into ceil(length / block_size)
slices input[i*B .. min((i+1)*B, length)].  Callers guard block_size = 0,
which divides by zero in Rust. -/
def block_signals (input : List α) (block_size : ℕ) : List (List α) :=
  let length := input.length
  let num_blocks :=
    if length % block_size = 0 then length / block_size else length / block_size + 1
  (List.range num_blocks).map
    (fun i =>
      (input.drop (i * block_size)).take (min ((i + 1) * block_size) length - i * block_size))

/-- FastConvolver::fft_based_convolution.  Over exact arithmetic the rustfft
pipeline (zero-pad both sequences to n = input.len() + L - 1, forward FFT of
each, pointwise complex multiply, inverse FFT, real part divided by n)
computes exactly the linear convolution of input with the stored impulse
response, so fft_output_re is modeled as that convolution.  The call
output.copy_from_slice(fft_output_re[..input.len()]) panics unless the
output slice length equals input.len() (none), and the remaining
n - input.len() samples are pushed into the tail ring buffer (capacity-0
push panics: none).  An empty stored impulse response makes n underflow
below input.len(): none. -/
def FastConvolver.fft_based_convolution (c : FastConvolver α) (input : List α)
    (outLen : ℕ) : Option (List α × FastConvolver α) :=
  if c.impulse_response.length = 0 then none
  else
    let n := input.length + c.impulse_response.length - 1
    let re := (List.range n).map (convEntry input c.impulse_response)
    if outLen ≠ input.length then none
    else if input.length < n ∧ c.buffer.capacity = 0 then none
    else some (re.take input.length,
      { c with buffer := (re.drop input.length).foldl RingBuffer.push c.buffer })

/-- Rust slice assignment full[a .. a + vs.len()] = vs (the flush call inside
overlap_add_freq writes, it does not accumulate).  Faithful when
a + vs.length is at most xs.length; callers guard the slice bounds. -/
def setSeg (xs : List α) (a : ℕ) (vs : List α) : List α :=
  xs.take a ++ vs ++ xs.drop (a + vs.length)

/-- The accumulation loop full[a + s] += vs[s] of overlap_add_freq.  Faithful
when a + vs.length is at most xs.length; callers guard the index bounds. -/
def addSeg (xs : List α) (a : ℕ) (vs : List α) : List α :=
  xs.take a ++ List.zipWith (· + ·) ((xs.drop a).take vs.length) vs ++
    xs.drop (a + vs.length)

/-- One iteration of the nested loop of FastConvolver::overlap_add_freq
(lines 118-134): install ir_block as the stored impulse response, convolve
the input block into a fresh block_size-sized buffer, add its first
input_block.len() - 1 samples into full_output starting at
i * input_block.len() + j * ir_block.len(), then flush ir_block.len() - 1
tail samples over full_output[end ..] (an assignment, not an accumulation).
Out-of-bounds indices or slices panic in Rust: none. -/
def oafStep (i j : ℕ) (ib jb : List α) (B : ℕ) (st : List α × FastConvolver α) :
    Option (List α × FastConvolver α) :=
  (FastConvolver.fft_based_convolution { st.2 with impulse_response := jb } ib B).bind
    (fun r =>
      let b0 := i * ib.length + j * jb.length
      let e0 := b0 + ib.length - 1
      if ¬ (ib.length - 1 = 0 ∨ b0 + (ib.length - 1) ≤ st.1.length) then none
      else if ¬ (e0 + (jb.length - 1) ≤ st.1.length) then none
      else if jb.length - 1 ≠ 0 ∧ r.2.buffer.capacity = 0 then none
      else
        let p := r.2.buffer.popN (jb.length - 1)
        some (setSeg (addSeg st.1 b0 (r.1.take (ib.length - 1))) e0 p.1,
          { r.2 with buffer := p.2 }))

/-- The enumerated inner loop of overlap_add_freq over the impulse-response
blocks. -/
def oafInner (i : ℕ) (ib : List α) (B : ℕ) :
    ℕ → List (List α) → List α × FastConvolver α → Option (List α × FastConvolver α)
  | _, [], st => some st
  | j, jb :: rest, st => (oafStep i j ib jb B st).bind (oafInner i ib B (j + 1) rest)

/-- The enumerated outer loop of overlap_add_freq over the input blocks. -/
def oafOuter (B : ℕ) (irbs : List (List α)) :
    ℕ → List (List α) → List α × FastConvolver α → Option (List α × FastConvolver α)
  | _, [], st => some st
  | i, ib :: rest, st => (oafInner i ib B 0 irbs st).bind (oafOuter B irbs (i + 1) rest)

/-- FastConvolver::overlap_add_freq: partition input and the stored impulse
response into block_size blocks, run the nested loop on a zero running
buffer of length output.len() + L - 1, then copy its first output.len()
samples over the caller's output buffer.  block_size = 0 divides by zero in
block_signals and an empty stored impulse response underflows the
running-buffer length and breaks the final copy: none. -/
def FastConvolver.overlap_add_freq (c : FastConvolver α) (input output : List α)
    (block_size : ℕ) : Option (List α × FastConvolver α) :=
  if block_size = 0 then none
  else if c.impulse_response.length = 0 then none
  else
    (oafOuter block_size (block_signals c.impulse_response block_size) 0
        (block_signals input block_size)
        (List.replicate (output.length + c.impulse_response.length - 1) 0, c)).bind
      (fun st =>
        if output.length ≤ st.1.length then some (st.1.take output.length, st.2)
        else none)

/-- FastConvolver::process: dispatch on the construction mode. -/
def FastConvolver.process (c : FastConvolver α) (input output : List α) :
    Option (List α × FastConvolver α) :=
  match c.mode with
  | ConvolutionMode.TimeDomain => c.time_domain_convolution input output
  | ConvolutionMode.FrequencyDomain block_size =>
    c.overlap_add_freq input output block_size

/-- The output_begin_index expression of overlap_add_freq line 125, as a
function of the two block indices: i * input_block.len() + j * ir_block.len(),
computed from the actual (possibly partial) block lengths. -/
def oafBeginIndex (impulse_response input : List α) (B i j : ℕ) : ℕ :=
  i * ((block_signals input B).getD i []).length +
    j * ((block_signals impulse_response B).getD j []).length

end ConvolverDefs

/-- enum FilterType of comb_filter.rs. -/
inductive FilterType where
  | FIR : FilterType
  | IIR : FilterType
deriving DecidableEq

/-- enum FilterParam of comb_filter.rs. -/
inductive FilterParam where
  | Gain : FilterParam
  | Delay : FilterParam
deriving DecidableEq

/-- enum Error of comb_filter.rs. -/
inductive CombFilterError where
  | InvalidValue : FilterParam → ℚ → CombFilterError
deriving DecidableEq

/-- Rust `as usize` cast from f32: truncate toward zero, saturating at 0 for
negative values (for nonnegative rationals, truncation is the floor). -/
def toUsize (q : ℚ) : ℕ := if q ≤ 0 then 0 else ⌊q⌋.toNat

/-- struct CombFilter of comb_filter.rs, with f32 fields as rationals. -/
structure CombFilter where
  filter_type : FilterType
  sample_rate_hz : ℚ
  num_channels : ℕ
  gain : ℚ
  delay_secs : ℚ
  delay_samples : ℕ
  delay_buffers : List (List ℚ)
deriving DecidableEq

/-- CombFilter::new. -/
def CombFilter.new (filter_type : FilterType) (max_delay_secs sample_rate_hz : ℚ)
    (num_channels : ℕ) : CombFilter :=
  { filter_type := filter_type
    sample_rate_hz := sample_rate_hz
    num_channels := num_channels
    gain := 0
    delay_secs := max_delay_secs
    delay_samples := toUsize (sample_rate_hz * max_delay_secs)
    delay_buffers :=
      List.replicate num_channels
        (List.replicate (toUsize (sample_rate_hz * max_delay_secs)) 0) }

/-- CombFilter::set_param, returning the updated state together with the Rust
Result.  The Delay arm assigns delay_secs := value before the range check, as
in the source. -/
def CombFilter.set_param (f : CombFilter) (param : FilterParam) (value : ℚ) :
    CombFilter × Except CombFilterError Unit :=
  match param with
  | FilterParam.Gain => ({ f with gain := value }, Except.ok ())
  | FilterParam.Delay =>
    let f1 := { f with delay_secs := value }
    if toUsize (f1.sample_rate_hz * value) > f1.delay_samples then
      (f1, Except.error (CombFilterError.InvalidValue FilterParam.Delay value))
    else
      ({ f1 with delay_samples := toUsize (f1.sample_rate_hz * f1.delay_secs) },
        Except.ok ())

/-- CombFilter::get_param. -/
def CombFilter.get_param (f : CombFilter) (param : FilterParam) : ℚ :=
  match param with
  | FilterParam.Gain => f.gain
  | FilterParam.Delay => f.delay_secs

/-! Helper lemmas. -/

section HelperLemmas

variable {α : Type} [CommRing α]

/-- List.getD after List.set at the same in-range position. -/
lemma getD_set_eq : ∀ (l : List α) (n : ℕ) (a : α), n < l.length →
    (l.set n a).getD n 0 = a := by
  intro l
  induction l with
  | nil => intro n a h; simp at h
  | cons x xs ih =>
    intro n a h
    cases n with
    | zero => simp
    | succ n => simpa using ih n a (by simpa using h)

/-- List.getD after List.set at a different position. -/
lemma getD_set_ne : ∀ (l : List α) (m n : ℕ) (a : α), m ≠ n →
    (l.set m a).getD n 0 = l.getD n 0 := by
  intro l
  induction l with
  | nil => intro m n a _; simp
  | cons x xs ih =>
    intro m n a hmn
    cases m with
    | zero =>
      cases n with
      | zero => exact absurd rfl hmn
      | succ n => simp
    | succ m =>
      cases n with
      | zero => simp
      | succ n => simpa using ih m n a (by omega)

/-- A conditional accumulation foldl over List.range equals the
corresponding Finset sum. -/
lemma foldl_ite_add (p : ℕ → Prop) [DecidablePred p] (f : ℕ → α) :
    ∀ (n : ℕ) (a : α),
      (List.range n).foldl (fun acc j => if p j then acc + f j else acc) a =
        a + ∑ j in Finset.range n, if p j then f j else 0 := by
  intro n
  induction n with
  | zero => intro a; simp
  | succ n ih =>
    intro a
    rw [List.range_succ, List.foldl_append, ih, Finset.sum_range_succ]
    simp only [List.foldl_cons, List.foldl_nil]
    split_ifs with hp
    · ring
    · ring

/-- The accumulation loop of the direct convolution computes the
convolution sum. -/
lemma convEntry_eq_sum (input h : List α) (i : ℕ) :
    convEntry input h i = ∑ j in Finset.range h.length,
      if j ≤ i ∧ i - j < input.length then input.getD (i - j) 0 * h.getD j 0 else 0 := by
  unfold convEntry
  rw [foldl_ite_add (fun j => j ≤ i ∧ i - j < input.length)
    (fun j => input.getD (i - j) 0 * h.getD j 0)]
  simp

/-- Closed form of n successive pops: the values cycle through the backing
store from the read cursor, and the read cursor advances by n modulo
capacity.  The contents and the write cursor are untouched. -/
lemma popN_eq : ∀ (n : ℕ) (r : RingBuffer α), r.tail < r.capacity →
    r.popN n = ((List.range n).map (fun i => r.buffer.getD ((r.tail + i) % r.capacity) 0),
      ⟨r.buffer, r.head, (r.tail + n) % r.capacity⟩) := by
  intro n
  induction n with
  | zero =>
    intro r h
    simp [RingBuffer.popN, Nat.mod_eq_of_lt h]
  | succ n ih =>
    intro n_r hn
    have hcap : 0 < n_r.capacity := by omega
    have h2 : ((n_r.tail + 1) % n_r.capacity) < n_r.capacity := Nat.mod_lt _ hcap
    have key := ih ⟨n_r.buffer, n_r.head, (n_r.tail + 1) % n_r.capacity⟩ h2
    simp only [RingBuffer.popN, RingBuffer.pop]
    rw [key]
    simp only [RingBuffer.capacity] at hn ⊢
    refine congrArg₂ Prod.mk ?_ ?_
    · rw [List.range_succ_eq_map, List.map_cons, List.map_map]
      refine congrArg₂ List.cons ?_ ?_
      · rw [Nat.add_zero, Nat.mod_eq_of_lt hn]
      · refine List.map_congr_left ?_
        intro i _
        simp only [Function.comp]
        rw [Nat.mod_add_mod, show n_r.tail + 1 + i = n_r.tail + i.succ by omega]
    · congr 1
      rw [Nat.mod_add_mod]
      congr 1
      omega

/-- getLastD of a nonempty list does not depend on the default. -/
lemma getLastD_irrel {β : Type} : ∀ (l : List β) (d1 d2 : β), l ≠ [] →
    l.getLastD d1 = l.getLastD d2 := by
  intro l
  induction l with
  | nil => intro _ _ h; exact absurd rfl h
  | cons x xs _ =>
    intro d1 d2 _
    cases xs with
    | nil => rfl
    | cons y ys => rfl

/-- fft_based_convolution never changes the stored impulse response. -/
lemma fft_ir_eq {c : FastConvolver α} {input : List α} {outLen : ℕ}
    {r : List α × FastConvolver α} (h : c.fft_based_convolution input outLen = some r) :
    r.2.impulse_response = c.impulse_response := by
  simp only [FastConvolver.fft_based_convolution] at h
  split at h
  · exact absurd h (by simp)
  · split at h
    · exact absurd h (by simp)
    · split at h
      · exact absurd h (by simp)
      · have := Option.some_inj.mp h
        subst this
        rfl

/-- A successful oafStep leaves ir_block installed as the stored impulse
response. -/
lemma oafStep_ir {i j : ℕ} {ib jb : List α} {B : ℕ} {st r : List α × FastConvolver α}
    (h : oafStep i j ib jb B st = some r) : r.2.impulse_response = jb := by
  simp only [oafStep] at h
  obtain ⟨x, hx, h2⟩ := Option.bind_eq_some.mp h
  have hir : x.2.impulse_response = jb := fft_ir_eq hx
  split at h2
  · exact absurd h2 (by simp)
  · split at h2
    · exact absurd h2 (by simp)
    · split at h2
      · exact absurd h2 (by simp)
      · have := Option.some_inj.mp h2
        subst this
        exact hir

/-- After a successful pass of the inner loop over a nonempty ir-block list,
the stored impulse response is the last ir block. -/
lemma oafInner_ir : ∀ (jbs : List (List α)) (i jstart : ℕ) (ib : List α) (B : ℕ)
    (st r : List α × FastConvolver α), jbs ≠ [] →
    oafInner i ib B jstart jbs st = some r → r.2.impulse_response = jbs.getLastD [] := by
  intro jbs
  induction jbs with
  | nil => intro _ _ _ _ _ _ hne _; exact absurd rfl hne
  | cons jb rest ih =>
    intro i jstart ib B st r _ h
    simp only [oafInner] at h
    obtain ⟨st1, h1, h2⟩ := Option.bind_eq_some.mp h
    cases rest with
    | nil =>
      simp only [oafInner] at h2
      have := Option.some_inj.mp h2
      subst this
      simpa [List.getLastD] using oafStep_ir h1
    | cons y ys =>
      rw [List.getLastD_cons, getLastD_irrel (y :: ys) jb [] (by simp)]
      exact ih i (jstart + 1) ib B st1 r (by simp) h2

/-- After a successful pass of the outer loop with nonempty block lists, the
stored impulse response is the last ir block. -/
lemma oafOuter_ir : ∀ (ibs irbs : List (List α)) (i B : ℕ)
    (st r : List α × FastConvolver α), ibs ≠ [] → irbs ≠ [] →
    oafOuter B irbs i ibs st = some r → r.2.impulse_response = irbs.getLastD [] := by
  intro ibs
  induction ibs with
  | nil => intro _ _ _ _ _ hne _ _; exact absurd rfl hne
  | cons ib rest ih =>
    intro irbs i B st r _ hirbs h
    simp only [oafOuter] at h
    obtain ⟨st1, h1, h2⟩ := Option.bind_eq_some.mp h
    cases rest with
    | nil =>
      simp only [oafOuter] at h2
      have := Option.some_inj.mp h2
      subst this
      exact oafInner_ir irbs i 0 ib B st st1 hirbs h1
    | cons y ys => exact ih irbs (i + 1) B st1 r (by simp) hirbs h2

/-- block_signals of a nonempty signal with a positive block size yields at
least one block. -/
lemma block_signals_ne_nil {l : List α} {B : ℕ} (hB : B ≠ 0) (hl : l ≠ []) :
    block_signals l B ≠ [] := by
  have hlen : 0 < l.length := List.length_pos.mpr hl
  simp only [block_signals, ne_eq, List.map_eq_nil_iff, List.range_eq_nil]
  split_ifs with hmod
  · have hdvd : B ∣ l.length := Nat.dvd_of_mod_eq_zero hmod
    have hle : B ≤ l.length := Nat.le_of_dvd hlen hdvd
    exact Nat.pos_iff_ne_zero.mp (Nat.div_pos hle (Nat.pos_of_ne_zero hB))
  · exact not_false

/-- Every single RingBuffer operation preserves the ring invariant. -/
lemma ringInv_applyOp {r : RingBuffer α} {c : ℕ} (hc : 1 ≤ c) (h : RingInv r c)
    (op : RingOp α) : RingInv (applyOp r op) c := by
  obtain ⟨hb, hh, ht⟩ := h
  have hcap : r.capacity = c := hb
  cases op with
  | push v =>
    refine ⟨?_, ?_, ht⟩
    · simpa [applyOp, RingBuffer.push] using hb
    · simpa [applyOp, RingBuffer.push, hcap] using Nat.mod_lt _ (by omega)
  | pop =>
    refine ⟨hb, hh, ?_⟩
    · simpa [applyOp, RingBuffer.pop, hcap] using Nat.mod_lt _ (by omega)
  | put v =>
    refine ⟨?_, hh, ht⟩
    · simpa [applyOp, RingBuffer.put] using hb
  | peek => exact ⟨hb, hh, ht⟩
  | get o => exact ⟨hb, hh, ht⟩
  | setRead i =>
    refine ⟨hb, hh, ?_⟩
    · simpa [applyOp, RingBuffer.set_read_index, hcap] using Nat.mod_lt _ (by omega)
  | setWrite i =>
    refine ⟨hb, ?_, ht⟩
    · simpa [applyOp, RingBuffer.set_write_index, hcap] using Nat.mod_lt _ (by omega)

/-- Every finite sequence of RingBuffer operations preserves the ring
invariant. -/
lemma ringInv_runOps : ∀ (ops : List (RingOp α)) (r : RingBuffer α) {c : ℕ}, 1 ≤ c →
    RingInv r c → RingInv (runOps r ops) c := by
  intro ops
  induction ops with
  | nil => intro r c _ h; exact h
  | cons op rest ih =>
    intro r c hc h
    exact ih (applyOp r op) hc (ringInv_applyOp hc h op)

/-- Under the ring invariant, len never exceeds capacity. -/
lemma len_le_of_inv {r : RingBuffer α} {c : ℕ} (h : RingInv r c) :
    r.len ≤ r.capacity := by
  obtain ⟨hb, hh, ht⟩ := h
  unfold RingBuffer.len RingBuffer.capacity
  split_ifs <;> omega

end HelperLemmas

/-! Claim theorems.  Concrete engines are evaluated over integer samples,
which are exactly representable in f32, so every exhibited discrepancy is
exact. -/

/-- C1 (code_bug): time-domain processing is not block-size invariant.  With
impulse response [1, 1], processing [1, 1] in one call yields [1, 2], but
processing it as two calls of one sample each yields [1] ++ [1] = [1, 1]:
time_domain_convolution pushes the tail of each block into the ring buffer
but never adds the stored tail back into the next block's output, so the
cross-boundary contribution input[0] * ir[1] is lost. -/
theorem C1_blocksize_variance :
    ((FastConvolver.new ([1, 1] : List ℤ) ConvolutionMode.TimeDomain).bind (fun c =>
      (c.process [1, 1] [0, 0]).map Prod.fst)) = some [1, 2] ∧
    ((FastConvolver.new ([1, 1] : List ℤ) ConvolutionMode.TimeDomain).bind (fun c =>
      (c.process [1] [0]).bind (fun r1 =>
        (r1.2.process [1] [0]).map (fun r2 => r1.1 ++ r2.1)))) = some [1, 1] ∧
    some ([1, 2] : List ℤ) ≠ some [1, 1] :=
  ⟨rfl, rfl, by decide⟩

/-- C2 (code_bug): the two modes disagree far beyond the 1e-5 tolerance.
With impulse response [1], block size 1 and input [1], time-domain processing
yields [1] while frequency-domain processing yields [0]: the overlap-add
accumulation loop runs only over the first input_block.len() - 1 = 0 samples
of each pairwise block convolution, dropping the sample entirely.  The unit
discrepancy, read back into the rationals, exceeds 1e-5. -/
theorem C2_mode_divergence :
    ((FastConvolver.new ([1] : List ℤ) ConvolutionMode.TimeDomain).bind (fun c =>
      (c.process [1] [0]).map Prod.fst)) = some [1] ∧
    ((FastConvolver.new ([1] : List ℤ) (ConvolutionMode.FrequencyDomain 1)).bind (fun c =>
      (c.process [1] [0]).map Prod.fst)) = some [0] ∧
    ¬ |(1 : ℚ) - 0| ≤ 1 / 100000 :=
  ⟨rfl, rfl, by norm_num⟩

/-- C3 (counterexample): in frequency-domain mode the installed impulse
response is not immutable under process.  Constructed with impulse response
[1, 2] and block size 1, a single process call leaves impulse_response = [2]
(the last ir block), not [1, 2]. -/
theorem C3_ir_mutation_counterexample :
    ((FastConvolver.new ([1, 2] : List ℤ) (ConvolutionMode.FrequencyDomain 1)).bind
      (fun c => (c.process [1] [0]).map (fun r => r.2.impulse_response))) = some [2] ∧
    some ([2] : List ℤ) ≠ some [1, 2] :=
  ⟨rfl, by decide⟩

/-- C3 (amended): a process call in TimeDomain mode leaves the stored impulse
response unchanged; a successful process call in FrequencyDomain mode with
nonempty input leaves the stored impulse response equal to the last block of
the block_size-partition of the impulse response present at call entry (hence
equal to the original only when it fits in one block). -/
theorem C3_amended {α : Type} [CommRing α] (c : FastConvolver α)
    (input output : List α) (res : List α × FastConvolver α)
    (h : c.process input output = some res) :
    (c.mode = ConvolutionMode.TimeDomain → res.2.impulse_response = c.impulse_response) ∧
    (∀ B, c.mode = ConvolutionMode.FrequencyDomain B → input ≠ [] →
      res.2.impulse_response = (block_signals c.impulse_response B).getLastD []) := by
  unfold FastConvolver.process at h
  split at h
  next hmode =>
    constructor
    · intro _
      simp only [FastConvolver.time_domain_convolution] at h
      split at h
      · exact absurd h (by simp)
      · split at h
        · exact absurd h (by simp)
        · have := Option.some_inj.mp h
          subst this
          rfl
    · intro B hB
      rw [hmode] at hB
      exact absurd hB (by simp)
  next bs hmode =>
    constructor
    · intro hTD
      rw [hmode] at hTD
      exact absurd hTD (by simp)
    · intro B hB hne
      rw [hmode] at hB
      have hBbs : B = bs := by injection hB with h1; exact h1.symm
      subst hBbs
      simp only [FastConvolver.overlap_add_freq] at h
      split at h
      next hB0 => exact absurd h (by simp)
      next hB0 =>
        split at h
        next hL0 => exact absurd h (by simp)
        next hL0 =>
          obtain ⟨st, hout, hfin⟩ := Option.bind_eq_some.mp h
          have hres2 : res.2 = st.2 := by
            split at hfin
            · have := Option.some_inj.mp hfin
              subst this
              rfl
            · exact absurd hfin (by simp)
          have hibs : block_signals input B ≠ [] := block_signals_ne_nil hB0 hne
          have hirbs : block_signals c.impulse_response B ≠ [] :=
            block_signals_ne_nil hB0 (by
              intro hnil
              exact hL0 (by rw [hnil]; rfl))
          rw [hres2]
          exact oafOuter_ir (block_signals input B) (block_signals c.impulse_response B)
            0 B (List.replicate (output.length + c.impulse_response.length - 1) 0, c)
            st hibs hirbs hout

/-- C3 (witness): both conjuncts of the amended claim at concrete engines
with impulse response [1, 2] and input [1]. -/
theorem C3_amended_witness :
    (([1, 2] : List ℤ) = [1, 2]) ∧
    (([2] : List ℤ) = (block_signals ([1, 2] : List ℤ) 1).getLastD []) :=
  ⟨(C3_amended (⟨[1, 2], ⟨[0], 0, 0⟩, ConvolutionMode.TimeDomain⟩ : FastConvolver ℤ)
      [1] [0] ([1], ⟨[1, 2], ⟨[2], 0, 0⟩, ConvolutionMode.TimeDomain⟩) rfl).1 rfl,
    (C3_amended (⟨[1, 2], ⟨[0], 0, 0⟩, ConvolutionMode.FrequencyDomain 1⟩ : FastConvolver ℤ)
      [1] [0] ([0], ⟨[2], ⟨[0], 0, 0⟩, ConvolutionMode.FrequencyDomain 1⟩) rfl).2
      1 rfl (by decide)⟩

/-- C4 (code_bug): set_param(Delay, v) with an out-of-range requested delay
does return the typed InvalidValue error carrying Delay and v, but it has
already assigned delay_secs := v before the range check, so the filter state
is mutated and get_param(Delay) afterwards returns the rejected value 2
instead of the previous value 1.  Filter: new(FIR, max_delay_secs = 1,
sample_rate_hz = 10, num_channels = 1). -/
theorem C4_set_param_mutation :
    ((CombFilter.new FilterType.FIR 1 10 1).set_param FilterParam.Delay 2).2 =
      Except.error (CombFilterError.InvalidValue FilterParam.Delay 2) ∧
    ((CombFilter.new FilterType.FIR 1 10 1).set_param FilterParam.Delay 2).1.get_param
      FilterParam.Delay = 2 ∧
    (CombFilter.new FilterType.FIR 1 10 1).get_param FilterParam.Delay = 1 ∧
    (2 : ℚ) ≠ 1 := by
  have h10 : toUsize ((10 : ℚ) * 1) = 10 := by
    norm_num [toUsize]
    rfl
  have h20 : toUsize ((10 : ℚ) * 2) = 20 := by
    norm_num [toUsize]
    rfl
  refine ⟨?_, ?_, rfl, by norm_num⟩
  · simp only [CombFilter.new, CombFilter.set_param, h10, h20]
    rw [if_pos (by norm_num)]
  · simp only [CombFilter.new, CombFilter.set_param, CombFilter.get_param, h10, h20]
    rw [if_pos (by norm_num)]

/-- C5 (counterexample): flush does not zero-pad an output longer than the
remaining tail.  With impulse response [0, 1, 1], after processing input [1]
the tail buffer holds the two tail samples [1, 1]; flushing into a length-4
output yields [1, 1, 1, 1] (the pop cursor wraps and re-reads the buffer),
not [1, 1, 0, 0] as the claim requires. -/
theorem C5_flush_no_zero_padding :
    ((FastConvolver.new ([0, 1, 1] : List ℤ) ConvolutionMode.TimeDomain).bind (fun c =>
      (c.process [1] [0]).bind (fun r =>
        (r.2.flush [0, 0, 0, 0]).map Prod.fst))) = some [1, 1, 1, 1] ∧
    some ([1, 1, 1, 1] : List ℤ) ≠ some [1, 1, 0, 0] :=
  ⟨rfl, by decide⟩

/-- C5 (amended): flush pops exactly output.len() samples regardless of how
many tail samples remain: position i of the output receives the backing-store
element at (read cursor + i) mod capacity, the read cursor advances by
output.len() modulo capacity, and positions beyond the remaining tail receive
recycled buffer contents rather than zeros. -/
theorem C5_amended {α : Type} [CommRing α] (c : FastConvolver α) (output : List α)
    (h : c.buffer.tail < c.buffer.capacity) :
    c.flush output = some
      ((List.range output.length).map
        (fun i => c.buffer.buffer.getD ((c.buffer.tail + i) % c.buffer.capacity) 0),
      ⟨c.impulse_response, ⟨c.buffer.buffer, c.buffer.head,
        (c.buffer.tail + output.length) % c.buffer.capacity⟩, c.mode⟩) := by
  unfold FastConvolver.flush
  rw [if_neg (by intro hc; omega), popN_eq output.length c.buffer h]

/-- C5 (witness): the amended claim at the concrete post-process state of the
counterexample; the two positions past the remaining tail receive 1, not 0. -/
theorem C5_amended_witness :
    (⟨[0, 1, 1], ⟨[1, 1], 0, 0⟩, ConvolutionMode.TimeDomain⟩ : FastConvolver ℤ).flush
      [0, 0, 0, 0] =
      some ([1, 1, 1, 1], ⟨[0, 1, 1], ⟨[1, 1], 0, 0⟩, ConvolutionMode.TimeDomain⟩) :=
  C5_amended (⟨[0, 1, 1], ⟨[1, 1], 0, 0⟩, ConvolutionMode.TimeDomain⟩ : FastConvolver ℤ)
    [0, 0, 0, 0] (by decide)

/-- C6 (counterexample): peek does not read at the write cursor.  On a
capacity-2 buffer with write cursor moved to 1, put(5) writes slot 1 but
peek() reads slot 0 (the read cursor) and returns 0, not 5. -/
theorem C6_peek_not_write_cursor :
    (((RingBuffer.new 2 : RingBuffer ℤ).set_write_index 1).put 5).peek = 0 ∧
    (0 : ℤ) ≠ 5 :=
  ⟨rfl, by decide⟩

/-- C6 (amended): put(v) writes v at the write cursor and peek() reads at the
read cursor, neither advancing any cursor nor changing the capacity; peek()
immediately after put(v) returns v exactly when the two cursors coincide, and
otherwise returns the untouched element at the read cursor. -/
theorem C6_amended {α : Type} [CommRing α] (r : RingBuffer α) (v : α)
    (h1 : r.head < r.capacity) (h2 : r.tail < r.capacity) :
    (r.put v).head = r.head ∧ (r.put v).tail = r.tail ∧
    (r.put v).capacity = r.capacity ∧
    (r.put v).buffer.getD r.head 0 = v ∧
    (r.put v).peek = if r.tail = r.head then v else r.buffer.getD r.tail 0 := by
  refine ⟨rfl, rfl, ?_, ?_, ?_⟩
  · simp [RingBuffer.put, RingBuffer.capacity]
  · exact getD_set_eq r.buffer r.head v h1
  · unfold RingBuffer.peek RingBuffer.put
    by_cases he : r.tail = r.head
    · rw [if_pos he, he]
      exact getD_set_eq r.buffer r.head v h1
    · rw [if_neg he]
      exact getD_set_ne r.buffer r.head r.tail v (fun hh => he hh.symm)

/-- C6 (witness): the amended claim on the concrete state with buffer
[3, 4], write cursor 1, read cursor 0: put 5 lands in slot 1, peek returns
3. -/
theorem C6_amended_witness :
    ((⟨[3, 4], 1, 0⟩ : RingBuffer ℤ).put 5).head = 1 ∧
    ((⟨[3, 4], 1, 0⟩ : RingBuffer ℤ).put 5).tail = 0 ∧
    ((⟨[3, 4], 1, 0⟩ : RingBuffer ℤ).put 5).capacity = 2 ∧
    ((⟨[3, 4], 1, 0⟩ : RingBuffer ℤ).put 5).buffer.getD 1 0 = 5 ∧
    ((⟨[3, 4], 1, 0⟩ : RingBuffer ℤ).put 5).peek = 3 :=
  C6_amended (⟨[3, 4], 1, 0⟩ : RingBuffer ℤ) 5 (by decide) (by decide)

/-- C7 (confirmed): for every capacity c at least 1 and every finite
sequence of push, pop, put, peek, get, set_read_index and set_write_index
operations with arbitrary (possibly out-of-range) arguments, both cursors
stay in [0, c), len never exceeds capacity, and capacity stays c. -/
theorem C7_ring_invariant {α : Type} [CommRing α] (c : ℕ) (hc : 1 ≤ c)
    (ops : List (RingOp α)) :
    (runOps (RingBuffer.new c) ops).head < c ∧
    (runOps (RingBuffer.new c) ops).tail < c ∧
    (runOps (RingBuffer.new c) ops).len ≤ (runOps (RingBuffer.new c) ops).capacity ∧
    (runOps (RingBuffer.new c) ops).capacity = c := by
  have hinv : RingInv (RingBuffer.new c : RingBuffer α) c :=
    ⟨by simp [RingBuffer.new], hc, hc⟩
  obtain ⟨hb, hh, ht⟩ := ringInv_runOps ops (RingBuffer.new c) hc hinv
  exact ⟨hh, ht, len_le_of_inv ⟨hb, hh, ht⟩, hb⟩

/-- C7 (witness): the invariant on a concrete capacity-3 buffer run through
a sequence exercising every operation, with out-of-range setter arguments. -/
theorem C7_ring_invariant_witness :
    (1 : ℕ) ≤ 3 ∧
    ((runOps (RingBuffer.new 3 : RingBuffer ℤ) [RingOp.push 5, RingOp.setWrite 7,
        RingOp.pop, RingOp.setRead 11, RingOp.put 2, RingOp.peek, RingOp.get 9]).head < 3 ∧
      (runOps (RingBuffer.new 3 : RingBuffer ℤ) [RingOp.push 5, RingOp.setWrite 7,
        RingOp.pop, RingOp.setRead 11, RingOp.put 2, RingOp.peek, RingOp.get 9]).tail < 3 ∧
      (runOps (RingBuffer.new 3 : RingBuffer ℤ) [RingOp.push 5, RingOp.setWrite 7,
        RingOp.pop, RingOp.setRead 11, RingOp.put 2, RingOp.peek, RingOp.get 9]).len ≤
        (runOps (RingBuffer.new 3 : RingBuffer ℤ) [RingOp.push 5, RingOp.setWrite 7,
          RingOp.pop, RingOp.setRead 11, RingOp.put 2, RingOp.peek, RingOp.get 9]).capacity ∧
      (runOps (RingBuffer.new 3 : RingBuffer ℤ) [RingOp.push 5, RingOp.setWrite 7,
        RingOp.pop, RingOp.setRead 11, RingOp.put 2, RingOp.peek, RingOp.get 9]).capacity
        = 3) :=
  ⟨by norm_num, C7_ring_invariant 3 (by norm_num) _⟩

/-- C8 (code_bug): the overlap-add accumulation offset is computed from the
actual block lengths, i * input_block.len() + j * ir_block.len(), which
differs from i * B + j * B on the final partial block: with B = 2, impulse
response [1, 1, 1] and input [1, 0], the pair (i, j) = (0, 1) is accumulated
at offset 1, not 2.  Moreover a final partial input block panics outright:
with impulse response [1, 1], B = 2 and input [1, 0, 0], copy_from_slice
inside fft_based_convolution is called with mismatched lengths 2 and 1, so
the whole call aborts. -/
theorem C8_offset_and_partial_block :
    oafBeginIndex ([1, 1, 1] : List ℤ) [1, 0] 2 0 1 = 1 ∧ (1 : ℕ) ≠ 0 * 2 + 1 * 2 ∧
    ((FastConvolver.new ([1, 1] : List ℤ) (ConvolutionMode.FrequencyDomain 2)).bind
      (fun c => c.process [1, 0, 0] [0, 0, 0])) = none :=
  ⟨rfl, by norm_num, rfl⟩

/-- C9 (counterexample): in time-domain mode, process with output longer
than input does not leave the excess positions unchanged.  With impulse
response [1, 1], input [1] and an output buffer previously holding [7, 7],
the result is [1, 1]: position 1 is overwritten with the convolution tail,
not left as 7. -/
theorem C9_output_overwrite :
    ((FastConvolver.new ([1, 1] : List ℤ) ConvolutionMode.TimeDomain).bind (fun c =>
      (c.process [1] [7, 7]).map Prod.fst)) = some [1, 1] ∧
    some ([1, 1] : List ℤ) ≠ some [1, 7] :=
  ⟨rfl, by decide⟩

/-- C9 (amended): in time-domain mode with output longer than input, every
successful process call writes all output positions: the result equals the
first output.len() samples of the full convolution of the input block with
the impulse response, independent of the output buffer's prior contents
(positions at and beyond input.len() receive the convolution tail and then
zeros, not their previous values). -/
theorem C9_amended {α : Type} [CommRing α] (c : FastConvolver α)
    (input output : List α) (res : List α × FastConvolver α)
    (hmode : c.mode = ConvolutionMode.TimeDomain)
    (hlen : input.length < output.length) (h : c.process input output = some res) :
    res.1 = (List.range output.length).map (fun i =>
      ∑ j in Finset.range c.impulse_response.length,
        if j ≤ i ∧ i - j < input.length then
          input.getD (i - j) 0 * c.impulse_response.getD j 0 else 0) := by
  clear hlen
  unfold FastConvolver.process at h
  split at h
  next =>
    simp only [FastConvolver.time_domain_convolution] at h
    split at h
    next hL => exact absurd h (by simp)
    next hL =>
      split at h
      · exact absurd h (by simp)
      · have := Option.some_inj.mp h
        subst this
        simp only
        rw [← List.map_take, List.take_range, Nat.min_eq_left (by omega)]
        refine List.map_congr_left ?_
        intro i _
        exact convEntry_eq_sum input c.impulse_response i
  next bs hm =>
    rw [hmode] at hm
    exact absurd hm (by simp)

/-- C9 (witness): the amended claim at the counterexample instance: impulse
response [1, 1], input [1], prior output [7, 7]. -/
theorem C9_amended_witness :
    ([1, 1] : List ℤ) = (List.range ([7, 7] : List ℤ).length).map (fun i =>
      ∑ j in Finset.range (([1, 1] : List ℤ).length),
        if j ≤ i ∧ i - j < ([1] : List ℤ).length then
          ([1] : List ℤ).getD (i - j) 0 * ([1, 1] : List ℤ).getD j 0 else 0) :=
  C9_amended (⟨[1, 1], ⟨[0], 0, 0⟩, ConvolutionMode.TimeDomain⟩ : FastConvolver ℤ)
    [1] [7, 7] ([1, 1], ⟨[1, 1], ⟨[0], 0, 0⟩, ConvolutionMode.TimeDomain⟩)
    rfl (by decide) rfl

/-- C10 (confirmed): FastConvolver::new computes impulse_response.len() - 1
in unsigned arithmetic in both modes; for an empty impulse response the
subtraction underflows and construction never yields a valid engine, while
for length L at least 1 it succeeds and the tail ring buffer has capacity
exactly L - 1. -/
theorem C10_new_empty_ir {α : Type} [CommRing α] (impulse_response : List α)
    (mode : ConvolutionMode) :
    (impulse_response.length = 0 → FastConvolver.new impulse_response mode = none) ∧
    (1 ≤ impulse_response.length →
      FastConvolver.new impulse_response mode =
        some ⟨impulse_response, RingBuffer.new (impulse_response.length - 1), mode⟩ ∧
      (RingBuffer.new (impulse_response.length - 1) : RingBuffer α).capacity =
        impulse_response.length - 1) := by
  constructor
  · intro h
    simp [FastConvolver.new, h]
  · intro h
    constructor
    · rw [FastConvolver.new, if_neg (by omega)]
    · simp [RingBuffer.new, RingBuffer.capacity]

/-- C10 (witness): construction fails on the empty impulse response and
succeeds with a capacity-1 tail buffer on [1, 2]. -/
theorem C10_new_empty_ir_witness :
    FastConvolver.new ([] : List ℤ) ConvolutionMode.TimeDomain = none ∧
    (FastConvolver.new ([1, 2] : List ℤ) ConvolutionMode.TimeDomain =
      some ⟨[1, 2], RingBuffer.new (([1, 2] : List ℤ).length - 1),
        ConvolutionMode.TimeDomain⟩ ∧
      (RingBuffer.new (([1, 2] : List ℤ).length - 1) : RingBuffer ℤ).capacity =
        ([1, 2] : List ℤ).length - 1) :=
  ⟨(C10_new_empty_ir ([] : List ℤ) ConvolutionMode.TimeDomain).1 rfl,
    (C10_new_empty_ir ([1, 2] : List ℤ) ConvolutionMode.TimeDomain).2 (by norm_num)⟩
